import Mathlib

/-!
# Verification of the duplicate-detection core of `processphotogallery`

Shallow embedding of `src/individual/duplicate_detector.py` (whose `analyze`,
`get_file_hash`, `get_phash` are duplicated verbatim in
`src/processphotogallery.py`).  File I/O and the external libraries are
modelled as parameters:

* `content : String → Option (List ℕ)` models reading a file's bytes
  (`open(filepath,'rb')` / `f.read`); `none` models any read failure caught
  by the bare `except` in `get_file_hash`.
* `md5hex : List ℕ → String` models `hashlib.md5(...).hexdigest()` applied to
  a complete byte stream; the streaming `hasher.update` loop is modelled by
  hashing the concatenation of the chunks read, which is the documented
  semantics of hashlib's incremental interface.
* `phash : String → Option Sig` models `get_phash` (PIL decode +
  `imagehash.phash`); `none` models a decode failure caught by its bare
  `except`.  `imagehash.phash` yields a 64-bit hash whose subtraction
  operator is the Hamming distance of the two bit vectors, modelled by
  Mathlib's `hammingDist` on `Fin 64 → Bool`.
* the scanned file list (`scan_images`, an `os.walk` traversal) is the input
  list `files`, in scan order; Python dicts (`exact_hash_map`, `phash_map`)
  preserve insertion order, and are modelled by insertion-ordered
  association lists / filtered lists.
* the similarity threshold is the module constant `SIMILARITY_THRESHOLD = 5`;
  `analyze` below takes it as the parameter `t` so that boundary values can
  be stated (the spec calls it a configurable value with default 5).
-/

namespace ProcessPhotoGallery

/-- A perceptual signature: the 64-bit hash produced by `imagehash.phash`
inside `get_phash`.  The distance of two signatures is their Hamming
distance (number of differing bits). -/
abbrev Sig : Type := Fin 64 → Bool

/-- Signature used only to totalise `phash_map` lookups; the clustering
loop only ever looks up keys of `phash_map`, so its value is irrelevant. -/
def defaultSig : Sig := fun _ => false

/-- Configuration constant from both source files. -/
def SIMILARITY_THRESHOLD : ℕ := 5

/-- The chunked read loop of `get_file_hash`:
while chunk := f.read(chunk_size): hasher.update(chunk).
Each `f.read chunkSize` returns the next at-most-`chunkSize` bytes of the
file; the walrus loop stops at the first empty chunk, so with
`chunkSize = 0` nothing is ever read. -/
def readChunks (chunkSize : ℕ) (l : List ℕ) : List (List ℕ) :=
  if h : chunkSize = 0 ∨ l = [] then []
  else l.take chunkSize :: readChunks chunkSize (l.drop chunkSize)
termination_by l.length
decreasing_by
  push_neg at h
  simp only [List.length_drop]
  exact Nat.sub_lt (List.length_pos.mpr h.2) (Nat.pos_of_ne_zero h.1)

/-- `get_file_hash(filepath, chunk_size=8192)`: streams the file's bytes in
chunks through an MD5 hasher and returns the hex digest; returns `none`
(`None`) when the file cannot be opened or read (the bare `except`). -/
def get_file_hash (md5hex : List ℕ → String) (content : String → Option (List ℕ))
    (filepath : String) (chunkSize : ℕ := 8192) : Option String :=
  match content filepath with
  | none => none
  | some bytes => some (md5hex (readChunks chunkSize bytes).flatten)

/-- One `exact_hash_map[file_hash].append(path)` step on the
insertion-ordered association list modelling the `defaultdict(list)`:
if the key is present, append to its list; otherwise a fresh entry with a
one-element list is created at the end. -/
def addToMap (m : List (String × List String)) (h : String) (p : String) :
    List (String × List String) :=
  match m with
  | [] => [(h, [p])]
  | (k, ps) :: rest =>
    if k = h then (k, ps ++ [p]) :: rest else (k, ps) :: addToMap rest h p

/-- The STEP 1 loop of `analyze` restricted to the exact pass: for each path
in scan order, if `get_file_hash` produced a digest, append the path to that
digest's bucket.  `m` is the accumulated `exact_hash_map`. -/
def buildExactMap (digest : String → Option String) :
    List String → List (String × List String) → List (String × List String)
  | [], m => m
  | f :: rest, m =>
    match digest f with
    | some h => buildExactMap digest rest (addToMap m h f)
    | none => buildExactMap digest rest m

/-- Lookup in the association list modelling `exact_hash_map`. -/
def mapLookup : List (String × List String) → String → Option (List String)
  | [], _ => none
  | (k, v) :: rest, h => if k = h then some v else mapLookup rest h

/-- Bucket of key `h` (empty when absent). -/
def mapGet (m : List (String × List String)) (h : String) : List String :=
  (mapLookup m h).getD []

/-- The keys of the association list modelling `exact_hash_map`. -/
def mapKeys (m : List (String × List String)) : List String :=
  m.map Prod.fst

/-- STEP 2 of `analyze`: keep the buckets with more than one member,
in map (= first-insertion) order. -/
def exactDuplicatesOf (digest : String → Option String) (files : List String) :
    List (String × List String) :=
  (buildExactMap digest files []).filter fun e => 1 < e.2.length

/-- `files = list(phash_map.keys())` in `analyze`: the scanned paths that
produced a perceptual hash, in scan order (Python dicts preserve insertion
order; `os.walk` yields each path once). -/
def sigFiles (phash : String → Option Sig) (files : List String) : List String :=
  files.filter fun f => (phash f).isSome

/-- Totalised lookup in `phash_map`. -/
def phashSig (phash : String → Option Sig) (f : String) : Sig :=
  (phash f).getD defaultSig

/-- The inner `for j in range(i+1, len(files))` loop of the visual pass:
scan the tail after the seed, skip files already in `visited`, and add a
file to the group (and to `visited`) exactly when its Hamming distance to
the SEED's hash (`phash_map[files[i]] - phash_map[files[j]]`) is within the
threshold.  Returns the added members in order together with the final
`visited` (as the list of insertions, newest first). -/
def scanFrom (sig : String → Sig) (t : ℕ) (seed : String) :
    List String → List String → List String × List String
  | visited, [] => ([], visited)
  | visited, g :: rest =>
    if g ∈ visited then scanFrom sig t seed visited rest
    else if hammingDist (sig seed) (sig g) ≤ t then
      let r := scanFrom sig t seed (g :: visited) rest
      (g :: r.1, r.2)
    else scanFrom sig t seed visited rest

/-- The outer `for i in range(len(files))` loop of the visual pass: each
unvisited file seeds a group `[files[i]]`, the inner scan adds later
unvisited files within threshold of the seed, and the group is kept only
when it has more than one member.  Returns the groups together with the
final `visited`. -/
def visualAux (sig : String → Sig) (t : ℕ) :
    List String → List String → List (List String) × List String
  | visited, [] => ([], visited)
  | visited, f :: rest =>
    if f ∈ visited then visualAux sig t visited rest
    else
      let r := scanFrom sig t f (f :: visited) rest
      let group := f :: r.1
      let res := visualAux sig t r.2 rest
      if 1 < group.length then (group :: res.1, res.2) else res

/-- STEP 3 of `analyze`: the visual-duplicate groups (`similar_groups`). -/
def similarGroupsOf (sig : String → Sig) (t : ℕ) (files : List String) :
    List (List String) :=
  (visualAux sig t [] files).1

/-- One CSV row of the report: columns `type`, `group_id`, `file_path`. -/
structure Row where
  type : String
  group_id : String
  file_path : String
deriving DecidableEq, Repr

/-- STEP 4, exact part: one row per (group, member) pair, `group_id` the
digest value. -/
def exactRows (groups : List (String × List String)) : List Row :=
  groups.flatMap fun e => e.2.map fun f => ⟨"exact_duplicate", e.1, f⟩

/-- STEP 4, visual part: one row per (group, member) pair, `group_id` the
synthetic label from `enumerate(similar_groups)`. -/
def visualRows (groups : List (List String)) : List Row :=
  groups.enum.flatMap fun p => p.2.map fun f =>
    ⟨"visual_duplicate", "visual_group_" ++ toString p.1, f⟩

/-- The outputs of one `analyze(folder)` run. -/
structure AnalysisResult where
  exactDuplicates : List (String × List String)
  similarGroups : List (List String)
  rows : List Row
deriving DecidableEq, Repr

/-- `analyze(folder)` as a function of the scan result and the two
fingerprinters: build `exact_hash_map`, keep buckets of size `> 1`, run the
visited-set clustering over the files that produced a perceptual hash, and
emit the exact rows followed by the visual rows. -/
def analyze (digest : String → Option String) (phash : String → Option Sig)
    (t : ℕ) (files : List String) : AnalysisResult :=
  let exact := exactDuplicatesOf digest files
  let groups := similarGroupsOf (phashSig phash) t (sigFiles phash files)
  { exactDuplicates := exact
    similarGroups := groups
    rows := exactRows exact ++ visualRows groups }

/-! ## Concrete instances used in the closed evaluation theorems below

Signatures realising distances d(A,B) = 5, d(B,C) = 5, d(A,C) = 10 at
threshold 5 (the spec's chaining example asks for d(A,B) = 3, d(B,C) = 3,
d(A,C) = 10, but those numbers violate the triangle inequality of Hamming
distance; 5/5/10 realises the same chaining situation: the first two pairs
within the threshold, the third outside it). -/

/-- All-zero signature of file a. -/
def sigA : Sig := fun _ => false

/-- Signature of file b: first 5 bits set, so d(sigA, sigB) = 5. -/
def sigB : Sig := fun i => decide (i.val < 5)

/-- Signature of file c: first 10 bits set, so d(sigB, sigC) = 5 and
d(sigA, sigC) = 10. -/
def sigC : Sig := fun i => decide (i.val < 10)

/-- Perceptual fingerprinter for the three-file example; every other path
fails to decode. -/
def phashABC : String → Option Sig := fun f =>
  if f = "a" then some sigA
  else if f = "b" then some sigB
  else if f = "c" then some sigC
  else none

/-- Content fingerprinter that produces no digest at all. -/
def digestNone : String → Option String := fun _ => none

/-- Content fingerprinter under which files a and b are exact duplicates. -/
def digestAB : String → Option String := fun f =>
  if f = "a" ∨ f = "b" then some "h1" else none

/-- Content fingerprinter under which files a and d are exact duplicates. -/
def digestAD : String → Option String := fun f =>
  if f = "a" ∨ f = "d" then some "h1" else none

/-- A concrete stand-in for the MD5 hex-digest function in closed
evaluations (the theorems about `get_file_hash` hold for every such
function). -/
def md5Test : List ℕ → String := fun l => toString l.sum

/-- Concrete byte contents: files a and b hold the same bytes, file z is
unreadable. -/
def contentTest : String → Option (List ℕ) := fun f =>
  if f = "a" ∨ f = "b" then some [1, 2, 3] else none

/-! ## Lemmas about the chunked read loop -/

theorem readChunks_flatten (cs : ℕ) (hcs : 0 < cs) :
    ∀ l : List ℕ, (readChunks cs l).flatten = l := by
  have key : ∀ n (l : List ℕ), l.length ≤ n → (readChunks cs l).flatten = l := by
    intro n
    induction n with
    | zero =>
      intro l hl
      have : l = [] := List.length_eq_zero.mp (Nat.le_zero.mp hl)
      subst this
      rw [readChunks]
      simp
    | succ n ih =>
      intro l hl
      rw [readChunks]
      by_cases h : cs = 0 ∨ l = []
      · rcases h with h | h
        · omega
        · subst h
          simp
      · push_neg at h
        rw [dif_neg (by push_neg; exact h)]
        have hdrop : (l.drop cs).length ≤ n := by
          rw [List.length_drop]
          have := List.length_pos.mpr h.2
          omega
        simp only [List.flatten_cons, ih _ hdrop, List.take_append_drop]
  intro l
  exact key l.length l le_rfl

/-! ## Lemmas about the exact-duplicate pass -/

theorem mapGet_addToMap_self (m : List (String × List String)) (h p : String) :
    mapGet (addToMap m h p) h = mapGet m h ++ [p] := by
  induction m with
  | nil => simp [addToMap, mapGet, mapLookup]
  | cons e rest ih =>
    obtain ⟨k, ps⟩ := e
    by_cases hk : k = h
    · subst hk
      simp [addToMap, mapGet, mapLookup]
    · simp only [addToMap, if_neg hk, mapGet, mapLookup, if_neg hk]
      exact ih

theorem mapGet_addToMap_ne (m : List (String × List String)) (h p k : String)
    (hk : k ≠ h) : mapGet (addToMap m h p) k = mapGet m k := by
  induction m with
  | nil =>
    simp only [addToMap, mapGet, mapLookup]
    rw [if_neg (Ne.symm hk)]
  | cons e rest ih =>
    obtain ⟨k0, ps⟩ := e
    by_cases hk0 : k0 = h
    · subst hk0
      have hne : ¬ k0 = k := fun hc => hk (hc ▸ rfl)
      simp only [addToMap, if_pos rfl, mapGet, mapLookup, if_neg hne]
    · by_cases hkk : k0 = k
      · subst hkk
        simp [addToMap, mapGet, mapLookup, hk0]
      · simp only [addToMap, if_neg hk0, mapGet, mapLookup, if_neg hkk]
        exact ih

theorem mapGet_buildExactMap (digest : String → Option String) :
    ∀ (l : List String) (m : List (String × List String)) (h : String),
      mapGet (buildExactMap digest l m) h =
        mapGet m h ++ l.filter (fun f => digest f = some h) := by
  intro l
  induction l with
  | nil => intro m h; simp [buildExactMap]
  | cons f rest ih =>
    intro m h
    rw [buildExactMap]
    rcases hd : digest f with _ | h0
    · have : ¬ (digest f = some h) := by simp [hd]
      simp only [List.filter_cons, decide_eq_true_eq]
      rw [if_neg this, ih]
    · by_cases hh : h0 = h
      · subst hh
        have : digest f = some h0 := hd
        simp only [List.filter_cons, decide_eq_true_eq]
        rw [if_pos this, ih, mapGet_addToMap_self, List.append_assoc,
          List.singleton_append]
      · have : ¬ (digest f = some h) := by simp [hd, hh]
        simp only [List.filter_cons, decide_eq_true_eq]
        rw [if_neg this, ih, mapGet_addToMap_ne _ _ _ _ (Ne.symm hh)]

theorem mapKeys_addToMap (m : List (String × List String)) (h p : String) :
    mapKeys (addToMap m h p) = mapKeys m ∨
      mapKeys (addToMap m h p) = mapKeys m ++ [h] := by
  induction m with
  | nil => right; simp [addToMap, mapKeys]
  | cons e rest ih =>
    obtain ⟨k, ps⟩ := e
    by_cases hk : k = h
    · left; subst hk; simp [addToMap, mapKeys]
    · rcases ih with ih | ih
      · left; simp [addToMap, mapKeys, hk] at ih ⊢; exact ih
      · right; simp [addToMap, mapKeys, hk] at ih ⊢; exact ih

theorem mem_mapKeys_addToMap (m : List (String × List String)) (h p k : String)
    (hk : k ∈ mapKeys (addToMap m h p)) : k ∈ mapKeys m ∨ k = h := by
  rcases mapKeys_addToMap m h p with he | he <;> rw [he] at hk
  · exact Or.inl hk
  · simpa using hk

theorem mapGet_eq_nil_of_not_mem_keys (m : List (String × List String))
    (h : String) (hk : h ∉ mapKeys m) : mapGet m h = [] := by
  induction m with
  | nil => simp [mapGet, mapLookup]
  | cons e rest ih =>
    obtain ⟨k, ps⟩ := e
    simp only [mapKeys, List.map_cons, List.mem_cons] at hk
    push_neg at hk
    have : ¬ k = h := fun hc => hk.1 (hc ▸ rfl)
    simp only [mapGet, mapLookup, if_neg this]
    exact ih (by simpa [mapKeys] using hk.2)

theorem nodup_mapKeys_addToMap (m : List (String × List String)) (h p : String)
    (hm : (mapKeys m).Nodup) : (mapKeys (addToMap m h p)).Nodup := by
  induction m with
  | nil => simp [addToMap, mapKeys]
  | cons e rest ih =>
    obtain ⟨k, ps⟩ := e
    simp only [mapKeys, List.map_cons, List.nodup_cons] at hm
    by_cases hk : k = h
    · subst hk
      simpa [addToMap, mapKeys] using hm
    · have ihr := ih hm.2
      simp only [addToMap, if_neg hk, mapKeys, List.map_cons, List.nodup_cons]
      refine ⟨fun hc => ?_, ihr⟩
      rcases mem_mapKeys_addToMap rest h p k hc with hc | hc
      · exact hm.1 hc
      · exact hk hc

theorem nodup_mapKeys_buildExactMap (digest : String → Option String) :
    ∀ (l : List String) (m : List (String × List String)),
      (mapKeys m).Nodup → (mapKeys (buildExactMap digest l m)).Nodup := by
  intro l
  induction l with
  | nil => intro m hm; simpa [buildExactMap] using hm
  | cons f rest ih =>
    intro m hm
    rw [buildExactMap]
    rcases digest f with _ | h0
    · exact ih m hm
    · exact ih _ (nodup_mapKeys_addToMap m h0 f hm)

theorem mapLookup_eq_some_of_mem (m : List (String × List String))
    (h : String) (v : List String) (hmem : (h, v) ∈ m)
    (hnd : (mapKeys m).Nodup) : mapLookup m h = some v := by
  induction m with
  | nil => cases hmem
  | cons e rest ih =>
    obtain ⟨k, ps⟩ := e
    simp only [mapKeys, List.map_cons, List.nodup_cons] at hnd
    rcases List.mem_cons.mp hmem with he | he
    · simp only [Prod.mk.injEq] at he
      obtain ⟨hk, hv⟩ := he
      subst hk; subst hv
      simp [mapLookup]
    · have hk : ¬ k = h := by
        intro hc
        subst hc
        exact hnd.1 (List.mem_map.mpr ⟨(k, v), he, rfl⟩)
      simp only [mapLookup, if_neg hk]
      exact ih he hnd.2

theorem mem_buildExactMap_eq_filter (digest : String → Option String)
    (files : List String) (h : String) (ps : List String)
    (hmem : (h, ps) ∈ buildExactMap digest files []) :
    ps = files.filter (fun f => digest f = some h) := by
  have hnd : (mapKeys (buildExactMap digest files [])).Nodup :=
    nodup_mapKeys_buildExactMap digest files [] (by simp [mapKeys])
  have hlook := mapLookup_eq_some_of_mem _ _ _ hmem hnd
  have hget := mapGet_buildExactMap digest files [] h
  simp only [mapGet, hlook, Option.getD_some, mapLookup, Option.getD_none] at hget
  simpa using hget

theorem mem_of_mapLookup_eq_some (m : List (String × List String))
    (h : String) (v : List String) (hl : mapLookup m h = some v) : (h, v) ∈ m := by
  induction m with
  | nil => simp [mapLookup] at hl
  | cons e rest ih =>
    obtain ⟨k, ps⟩ := e
    simp only [mapLookup] at hl
    by_cases hk : k = h
    · rw [if_pos hk] at hl
      injection hl with hps
      subst hps
      subst hk
      exact List.mem_cons_self _ _
    · rw [if_neg hk] at hl
      exact List.mem_cons_of_mem _ (ih hl)

theorem exactDuplicatesOf_mem (digest : String → Option String)
    (files : List String) (e : String × List String)
    (he : e ∈ exactDuplicatesOf digest files) :
    e.2 = files.filter (fun f => digest f = some e.1) ∧ 1 < e.2.length := by
  obtain ⟨hmem, hlen⟩ := List.mem_filter.mp he
  exact ⟨mem_buildExactMap_eq_filter digest files e.1 e.2 hmem,
    by simpa using hlen⟩

theorem exactDuplicatesOf_complete (digest : String → Option String)
    (files : List String) (h : String)
    (hlen : 1 < (files.filter (fun f => digest f = some h)).length) :
    (h, files.filter (fun f => digest f = some h)) ∈
      exactDuplicatesOf digest files := by
  have hget := mapGet_buildExactMap digest files [] h
  simp only [mapGet, mapLookup, Option.getD_none, List.nil_append] at hget
  have hne : files.filter (fun f => digest f = some h) ≠ [] := by
    intro hc
    rw [hc] at hlen
    simp at hlen
  rcases hl : mapLookup (buildExactMap digest files []) h with _ | v
  · rw [hl] at hget
    simp only [Option.getD_none] at hget
    exact absurd hget.symm hne
  · rw [hl] at hget
    simp only [Option.getD_some] at hget
    subst hget
    have hmem := mem_of_mapLookup_eq_some _ _ _ hl
    exact List.mem_filter.mpr ⟨hmem, by simpa using hlen⟩

theorem digest_of_mem_exactDuplicatesOf (digest : String → Option String)
    (files : List String) (e : String × List String)
    (he : e ∈ exactDuplicatesOf digest files) (f : String) (hf : f ∈ e.2) :
    digest f = some e.1 ∧ f ∈ files := by
  have := (exactDuplicatesOf_mem digest files e he).1
  rw [this] at hf
  have := List.mem_filter.mp hf
  exact ⟨by simpa using this.2, this.1⟩

/-! ## Lemmas about the visual-duplicate pass -/

theorem scanFrom_snd (sig : String → Sig) (t : ℕ) (seed : String) :
    ∀ (l visited : List String),
      (scanFrom sig t seed visited l).2 =
        (scanFrom sig t seed visited l).1.reverse ++ visited := by
  intro l
  induction l with
  | nil => intro visited; simp [scanFrom]
  | cons g rest ih =>
    intro visited
    simp only [scanFrom]
    by_cases hv : g ∈ visited
    · rw [if_pos hv]; exact ih visited
    · rw [if_neg hv]
      by_cases hd : hammingDist (sig seed) (sig g) ≤ t
      · rw [if_pos hd]
        simp only [List.reverse_cons, List.append_assoc, List.singleton_append]
        exact ih (g :: visited)
      · rw [if_neg hd]; exact ih visited

theorem subset_scanFrom_snd (sig : String → Sig) (t : ℕ) (seed : String)
    (l visited : List String) :
    visited ⊆ (scanFrom sig t seed visited l).2 := by
  rw [scanFrom_snd]
  exact List.subset_append_right _ _

theorem mem_scanFrom_snd (sig : String → Sig) (t : ℕ) (seed : String)
    (l visited : List String) (x : String) :
    x ∈ (scanFrom sig t seed visited l).2 ↔
      x ∈ (scanFrom sig t seed visited l).1 ∨ x ∈ visited := by
  rw [scanFrom_snd]
  simp [List.mem_append, List.mem_reverse]

theorem scanFrom_sublist (sig : String → Sig) (t : ℕ) (seed : String) :
    ∀ (l visited : List String), (scanFrom sig t seed visited l).1.Sublist l := by
  intro l
  induction l with
  | nil => intro visited; simp [scanFrom]
  | cons g rest ih =>
    intro visited
    simp only [scanFrom]
    by_cases hv : g ∈ visited
    · rw [if_pos hv]; exact (ih visited).cons g
    · rw [if_neg hv]
      by_cases hd : hammingDist (sig seed) (sig g) ≤ t
      · rw [if_pos hd]
        exact (ih (g :: visited)).cons₂ g
      · rw [if_neg hd]; exact (ih visited).cons g

theorem mem_scanFrom_fst (sig : String → Sig) (t : ℕ) (seed : String) :
    ∀ (l visited : List String) (m : String),
      m ∈ (scanFrom sig t seed visited l).1 →
        m ∉ visited ∧ hammingDist (sig seed) (sig m) ≤ t := by
  intro l
  induction l with
  | nil => intro visited m hm; simp [scanFrom] at hm
  | cons g rest ih =>
    intro visited m hm
    simp only [scanFrom] at hm
    by_cases hv : g ∈ visited
    · rw [if_pos hv] at hm; exact ih visited m hm
    · rw [if_neg hv] at hm
      by_cases hd : hammingDist (sig seed) (sig g) ≤ t
      · rw [if_pos hd] at hm
        simp only [List.mem_cons] at hm
        rcases hm with hm | hm
        · subst hm; exact ⟨hv, hd⟩
        · have := ih (g :: visited) m hm
          exact ⟨fun hc => this.1 (List.mem_cons_of_mem _ hc), this.2⟩
      · rw [if_neg hd] at hm; exact ih visited m hm

theorem scanFrom_nodup (sig : String → Sig) (t : ℕ) (seed : String) :
    ∀ (l visited : List String), (scanFrom sig t seed visited l).1.Nodup := by
  intro l
  induction l with
  | nil => intro visited; simp [scanFrom]
  | cons g rest ih =>
    intro visited
    simp only [scanFrom]
    by_cases hv : g ∈ visited
    · rw [if_pos hv]; exact ih visited
    · rw [if_neg hv]
      by_cases hd : hammingDist (sig seed) (sig g) ≤ t
      · rw [if_pos hd]
        refine List.nodup_cons.mpr ⟨fun hc => ?_, ih (g :: visited)⟩
        exact (mem_scanFrom_fst sig t seed rest (g :: visited) g hc).1
          (List.mem_cons_self _ _)
      · rw [if_neg hd]; exact ih visited

theorem scanFrom_far (sig : String → Sig) (t : ℕ) (seed : String) :
    ∀ (l visited : List String) (g : String), g ∈ l →
      g ∉ (scanFrom sig t seed visited l).2 →
        t < hammingDist (sig seed) (sig g) := by
  intro l
  induction l with
  | nil => intro visited g hg; cases hg
  | cons x rest ih =>
    intro visited g hg hnv
    simp only [scanFrom] at hnv
    by_cases hv : x ∈ visited
    · rw [if_pos hv] at hnv
      rcases List.mem_cons.mp hg with hg | hg
      · subst hg
        exact absurd (subset_scanFrom_snd sig t seed rest visited hv) hnv
      · exact ih visited g hg hnv
    · rw [if_neg hv] at hnv
      by_cases hd : hammingDist (sig seed) (sig x) ≤ t
      · rw [if_pos hd] at hnv
        simp only at hnv
        rcases List.mem_cons.mp hg with hg | hg
        · subst hg
          exact absurd (subset_scanFrom_snd sig t seed rest (g :: visited)
            (List.mem_cons_self _ _)) hnv
        · exact ih (x :: visited) g hg hnv
      · rw [if_neg hd] at hnv
        rcases List.mem_cons.mp hg with hg | hg
        · subst hg; omega
        · exact ih visited g hg hnv

theorem scanFrom_all_near (sig : String → Sig) (t : ℕ) (seed : String) :
    ∀ (l visited : List String),
      (∀ x ∈ l, hammingDist (sig seed) (sig x) ≤ t) → l.Nodup →
      (∀ x ∈ l, x ∉ visited) →
      scanFrom sig t seed visited l = (l, l.reverse ++ visited) := by
  intro l
  induction l with
  | nil => intro visited _ _ _; simp [scanFrom]
  | cons g rest ih =>
    intro visited hnear hnd hvis
    simp only [scanFrom]
    rw [if_neg (hvis g (List.mem_cons_self _ _)),
      if_pos (hnear g (List.mem_cons_self _ _))]
    have hrest : scanFrom sig t seed (g :: visited) rest =
        (rest, rest.reverse ++ (g :: visited)) := by
      refine ih (g :: visited) (fun x hx => hnear x (List.mem_cons_of_mem _ hx))
        (List.nodup_cons.mp hnd).2 (fun x hx hc => ?_)
      rcases List.mem_cons.mp hc with hc | hc
      · exact (List.nodup_cons.mp hnd).1 (hc ▸ hx)
      · exact hvis x (List.mem_cons_of_mem _ hx) hc
    rw [hrest]
    simp [List.reverse_cons, List.append_assoc]

theorem subset_visualAux_snd (sig : String → Sig) (t : ℕ) :
    ∀ (l visited : List String), visited ⊆ (visualAux sig t visited l).2 := by
  intro l
  induction l with
  | nil => intro visited; simp [visualAux]
  | cons f rest ih =>
    intro visited
    simp only [visualAux]
    by_cases hv : f ∈ visited
    · rw [if_pos hv]; exact ih visited
    · rw [if_neg hv]
      by_cases hlen :
          1 < (f :: (scanFrom sig t f (f :: visited) rest).1).length
      · rw [if_pos hlen]
        exact fun x hx => ih _ (subset_scanFrom_snd sig t f rest (f :: visited)
          (List.mem_cons_of_mem _ hx))
      · rw [if_neg hlen]
        exact fun x hx => ih _ (subset_scanFrom_snd sig t f rest (f :: visited)
          (List.mem_cons_of_mem _ hx))

theorem visualAux_groups_length (sig : String → Sig) (t : ℕ) :
    ∀ (l visited : List String) (G : List String),
      G ∈ (visualAux sig t visited l).1 → 1 < G.length := by
  intro l
  induction l with
  | nil => intro visited G hG; simp [visualAux] at hG
  | cons f rest ih =>
    intro visited G hG
    simp only [visualAux] at hG
    by_cases hv : f ∈ visited
    · rw [if_pos hv] at hG; exact ih visited G hG
    · rw [if_neg hv] at hG
      by_cases hlen :
          1 < (f :: (scanFrom sig t f (f :: visited) rest).1).length
      · rw [if_pos hlen] at hG
        simp only [List.mem_cons] at hG
        rcases hG with hG | hG
        · subst hG; exact hlen
        · exact ih _ G hG
      · rw [if_neg hlen] at hG
        exact ih _ G hG

theorem visualAux_groups_sublist (sig : String → Sig) (t : ℕ) :
    ∀ (l visited : List String) (G : List String),
      G ∈ (visualAux sig t visited l).1 → G.Sublist l := by
  intro l
  induction l with
  | nil => intro visited G hG; simp [visualAux] at hG
  | cons f rest ih =>
    intro visited G hG
    simp only [visualAux] at hG
    by_cases hv : f ∈ visited
    · rw [if_pos hv] at hG; exact (ih visited G hG).cons f
    · rw [if_neg hv] at hG
      by_cases hlen :
          1 < (f :: (scanFrom sig t f (f :: visited) rest).1).length
      · rw [if_pos hlen] at hG
        simp only [List.mem_cons] at hG
        rcases hG with hG | hG
        · subst hG
          exact (scanFrom_sublist sig t f rest (f :: visited)).cons₂ f
        · exact (ih _ G hG).cons f
      · rw [if_neg hlen] at hG
        exact (ih _ G hG).cons f

theorem visualAux_groups_star (sig : String → Sig) (t : ℕ) :
    ∀ (l visited : List String) (G : List String),
      G ∈ (visualAux sig t visited l).1 →
        ∀ m ∈ G, hammingDist (sig G.headI) (sig m) ≤ t := by
  intro l
  induction l with
  | nil => intro visited G hG; simp [visualAux] at hG
  | cons f rest ih =>
    intro visited G hG
    simp only [visualAux] at hG
    by_cases hv : f ∈ visited
    · rw [if_pos hv] at hG; exact ih visited G hG
    · rw [if_neg hv] at hG
      by_cases hlen :
          1 < (f :: (scanFrom sig t f (f :: visited) rest).1).length
      · rw [if_pos hlen] at hG
        simp only [List.mem_cons] at hG
        rcases hG with hG | hG
        · subst hG
          intro m hm
          simp only [List.headI_cons]
          rcases List.mem_cons.mp hm with hm | hm
          · subst hm
            simp [hammingDist_self]
          · exact (mem_scanFrom_fst sig t f rest (f :: visited) m hm).2
        · exact ih _ G hG
      · rw [if_neg hlen] at hG
        exact ih _ G hG

theorem visualAux_groups_not_visited (sig : String → Sig) (t : ℕ) :
    ∀ (l visited : List String) (G : List String),
      G ∈ (visualAux sig t visited l).1 → ∀ m ∈ G, m ∉ visited := by
  intro l
  induction l with
  | nil => intro visited G hG; simp [visualAux] at hG
  | cons f rest ih =>
    intro visited G hG
    simp only [visualAux] at hG
    by_cases hv : f ∈ visited
    · rw [if_pos hv] at hG; exact ih visited G hG
    · rw [if_neg hv] at hG
      by_cases hlen :
          1 < (f :: (scanFrom sig t f (f :: visited) rest).1).length
      · rw [if_pos hlen] at hG
        simp only [List.mem_cons] at hG
        rcases hG with hG | hG
        · subst hG
          intro m hm
          rcases List.mem_cons.mp hm with hm | hm
          · subst hm; exact hv
          · intro hc
            exact (mem_scanFrom_fst sig t f rest (f :: visited) m hm).1
              (List.mem_cons_of_mem _ hc)
        · intro m hm hc
          exact ih _ G hG m hm (subset_scanFrom_snd sig t f rest (f :: visited)
            (List.mem_cons_of_mem _ hc))
      · rw [if_neg hlen] at hG
        intro m hm hc
        exact ih _ G hG m hm (subset_scanFrom_snd sig t f rest (f :: visited)
          (List.mem_cons_of_mem _ hc))

theorem visualAux_groups_mem_snd (sig : String → Sig) (t : ℕ) :
    ∀ (l visited : List String) (G : List String),
      G ∈ (visualAux sig t visited l).1 →
        ∀ m ∈ G, m ∈ (visualAux sig t visited l).2 := by
  intro l
  induction l with
  | nil => intro visited G hG; simp [visualAux] at hG
  | cons f rest ih =>
    intro visited G hG
    simp only [visualAux] at hG ⊢
    by_cases hv : f ∈ visited
    · rw [if_pos hv] at hG ⊢; exact ih visited G hG
    · rw [if_neg hv] at hG ⊢
      by_cases hlen :
          1 < (f :: (scanFrom sig t f (f :: visited) rest).1).length
      · rw [if_pos hlen] at hG ⊢
        simp only [List.mem_cons] at hG
        rcases hG with hG | hG
        · subst hG
          intro m hm
          simp only
          refine subset_visualAux_snd sig t rest _ ?_
          rcases List.mem_cons.mp hm with hm | hm
          · subst hm
            exact subset_scanFrom_snd sig t m rest (m :: visited)
              (List.mem_cons_self _ _)
          · exact (mem_scanFrom_snd sig t f rest (f :: visited) m).mpr
              (Or.inl hm)
        · exact ih _ G hG
      · rw [if_neg hlen] at hG ⊢
        exact ih _ G hG

theorem visualAux_groups_nodup (sig : String → Sig) (t : ℕ) :
    ∀ (l visited : List String) (G : List String),
      G ∈ (visualAux sig t visited l).1 → G.Nodup := by
  intro l
  induction l with
  | nil => intro visited G hG; simp [visualAux] at hG
  | cons f rest ih =>
    intro visited G hG
    simp only [visualAux] at hG
    by_cases hv : f ∈ visited
    · rw [if_pos hv] at hG; exact ih visited G hG
    · rw [if_neg hv] at hG
      by_cases hlen :
          1 < (f :: (scanFrom sig t f (f :: visited) rest).1).length
      · rw [if_pos hlen] at hG
        simp only [List.mem_cons] at hG
        rcases hG with hG | hG
        · subst hG
          refine List.nodup_cons.mpr ⟨fun hc => ?_, scanFrom_nodup sig t f rest _⟩
          exact (mem_scanFrom_fst sig t f rest (f :: visited) f hc).1
            (List.mem_cons_self _ _)
        · exact ih _ G hG
      · rw [if_neg hlen] at hG
        exact ih _ G hG

theorem visualAux_pairwise (sig : String → Sig) (t : ℕ) :
    ∀ (l visited : List String),
      List.Pairwise (fun g1 g2 => ∀ x, x ∈ g1 → x ∉ g2)
        (visualAux sig t visited l).1 := by
  intro l
  induction l with
  | nil => intro visited; simp [visualAux]
  | cons f rest ih =>
    intro visited
    simp only [visualAux]
    by_cases hv : f ∈ visited
    · rw [if_pos hv]; exact ih visited
    · rw [if_neg hv]
      by_cases hlen :
          1 < (f :: (scanFrom sig t f (f :: visited) rest).1).length
      · rw [if_pos hlen]
        refine List.pairwise_cons.mpr ⟨?_, ih _⟩
        intro G hG x hx hxG
        have hnv := visualAux_groups_not_visited sig t rest _ G hG x hxG
        apply hnv
        rcases List.mem_cons.mp hx with hx | hx
        · subst hx
          exact subset_scanFrom_snd sig t x rest (x :: visited)
            (List.mem_cons_self _ _)
        · exact (mem_scanFrom_snd sig t f rest (f :: visited) x).mpr (Or.inl hx)
      · rw [if_neg hlen]
        exact ih _

theorem visualAux_all_visited (sig : String → Sig) (t : ℕ) :
    ∀ (l visited : List String), (∀ x ∈ l, x ∈ visited) →
      (visualAux sig t visited l).1 = [] := by
  intro l
  induction l with
  | nil => intro visited _; simp [visualAux]
  | cons f rest ih =>
    intro visited hall
    simp only [visualAux]
    rw [if_pos (hall f (List.mem_cons_self _ _))]
    exact ih visited (fun x hx => hall x (List.mem_cons_of_mem _ hx))

theorem visualAux_total (sig : String → Sig) (t : ℕ) (f : String)
    (rest : List String) (hnd : (f :: rest).Nodup) (hne : rest ≠ [])
    (hnear : ∀ x ∈ rest, hammingDist (sig f) (sig x) ≤ t) :
    (visualAux sig t [] (f :: rest)).1 = [f :: rest] := by
  obtain ⟨hf, hndr⟩ := List.nodup_cons.mp hnd
  simp only [visualAux]
  rw [if_neg (List.not_mem_nil f)]
  have hscan : scanFrom sig t f [f] rest = (rest, rest.reverse ++ [f]) := by
    refine scanFrom_all_near sig t f rest [f] hnear hndr (fun x hx hc => ?_)
    rcases List.mem_cons.mp hc with hc | hc
    · exact hf (hc ▸ hx)
    · cases hc
  rw [hscan]
  have hlen : 1 < (f :: rest).length := by
    cases rest with
    | nil => exact absurd rfl hne
    | cons a as => simp [List.length]
  rw [if_pos hlen]
  have hrec : (visualAux sig t (rest.reverse ++ [f]) rest).1 = [] := by
    refine visualAux_all_visited sig t rest _ (fun x hx => ?_)
    exact List.mem_append.mpr (Or.inl (List.mem_reverse.mpr hx))
  simp [hrec]

/-! ## Miscellaneous helper lemmas -/

theorem one_lt_length_of_mem_ne {α : Type} (l : List α) (a b : α)
    (ha : a ∈ l) (hb : b ∈ l) (hab : a ≠ b) : 1 < l.length := by
  cases l with
  | nil => cases ha
  | cons x xs =>
    cases xs with
    | nil =>
      simp only [List.mem_singleton] at ha hb
      exact absurd (ha.trans hb.symm) hab
    | cons y ys =>
      simp only [List.length_cons]
      omega

theorem length_flatMap_eq_sum {α β : Type} (l : List α) (f : α → List β) :
    (l.flatMap f).length = (l.map (fun a => (f a).length)).sum := by
  induction l with
  | nil => simp
  | cons x xs ih => simp [List.flatMap_cons, ih]

theorem exactRows_length (gs : List (String × List String)) :
    (exactRows gs).length = (gs.map (fun e => e.2.length)).sum := by
  rw [exactRows, length_flatMap_eq_sum]
  simp

theorem visualRows_length (gs : List (List String)) :
    (visualRows gs).length = (gs.map List.length).sum := by
  rw [visualRows, length_flatMap_eq_sum]
  have h1 : gs.enum.map (fun p : ℕ × List String =>
      ((p.2.map fun f =>
        (⟨"visual_duplicate", "visual_group_" ++ toString p.1, f⟩ : Row)).length)) =
      gs.enum.map (fun p => p.2.length) := by
    simp
  rw [h1]
  have h2 : gs.enum.map (fun p : ℕ × List String => p.2.length) =
      (gs.enum.map Prod.snd).map List.length := by
    rw [List.map_map]
    rfl
  rw [h2, List.enum_map_snd]

theorem mem_sigFiles (phash : String → Option Sig) (files : List String)
    (x : String) :
    x ∈ sigFiles phash files ↔ x ∈ files ∧ (phash x).isSome := by
  simp [sigFiles, List.mem_filter]

theorem exactDuplicatesOf_pairwise (digest : String → Option String)
    (files : List String) :
    List.Pairwise (fun e1 e2 => ∀ x, x ∈ e1.2 → x ∉ e2.2)
      (exactDuplicatesOf digest files) := by
  have hnd : (mapKeys (buildExactMap digest files [])).Nodup :=
    nodup_mapKeys_buildExactMap digest files [] (by simp [mapKeys])
  have hkeys : List.Pairwise (fun e1 e2 : String × List String => e1.1 ≠ e2.1)
      (buildExactMap digest files []) := by
    rw [mapKeys, List.Nodup, List.pairwise_map] at hnd
    exact hnd
  have hfilt : List.Pairwise (fun e1 e2 : String × List String => e1.1 ≠ e2.1)
      (exactDuplicatesOf digest files) :=
    hkeys.sublist (List.filter_sublist _)
  refine List.Pairwise.imp_of_mem ?_ hfilt
  intro e1 e2 h1 h2 hne x hx1 hx2
  have d1 := (digest_of_mem_exactDuplicatesOf digest files e1 h1 x hx1).1
  have d2 := (digest_of_mem_exactDuplicatesOf digest files e2 h2 x hx2).1
  rw [d1] at d2
  exact hne (Option.some.injEq .. ▸ d2 : _)

theorem buildExactMap_cons (digest : String → Option String) (f : String)
    (rest : List String) (m : List (String × List String)) :
    buildExactMap digest (f :: rest) m =
      buildExactMap digest rest
        (match digest f with | some h => addToMap m h f | none => m) := by
  cases h : digest f <;> simp [buildExactMap, h]

theorem buildExactMap_filter_ne (digest : String → Option String) (f : String)
    (hdf : digest f = none) :
    ∀ (l : List String) (m : List (String × List String)),
      buildExactMap digest (l.filter fun g => g ≠ f) m =
        buildExactMap digest l m := by
  intro l
  induction l with
  | nil => intro m; simp
  | cons g rest ih =>
    intro m
    by_cases hg : g = f
    · subst hg
      have hl : (g :: rest).filter (fun x => x ≠ g) =
          rest.filter (fun x => x ≠ g) := by simp
      rw [hl, ih, buildExactMap_cons, hdf]
    · have hl : (g :: rest).filter (fun x => x ≠ f) =
          g :: rest.filter (fun x => x ≠ f) := by simp [hg]
      rw [hl, buildExactMap_cons, buildExactMap_cons, ih]

theorem analyze_exact (digest : String → Option String)
    (phash : String → Option Sig) (t : ℕ) (files : List String) :
    (analyze digest phash t files).exactDuplicates =
      exactDuplicatesOf digest files := rfl

theorem analyze_similar (digest : String → Option String)
    (phash : String → Option Sig) (t : ℕ) (files : List String) :
    (analyze digest phash t files).similarGroups =
      similarGroupsOf (phashSig phash) t (sigFiles phash files) := rfl

theorem analyze_rows (digest : String → Option String)
    (phash : String → Option Sig) (t : ℕ) (files : List String) :
    (analyze digest phash t files).rows =
      exactRows (exactDuplicatesOf digest files) ++
        visualRows (similarGroupsOf (phashSig phash) t (sigFiles phash files)) :=
  rfl

/-! ## The claims -/

/-- C3: in every run, the exact-duplicate groups are pairwise disjoint and
the visual-duplicate groups are pairwise disjoint, so each scanned file is
in at most one group of each kind; and the same file can simultaneously be
in an exact group and a visual group, witnessed by a concrete run in which
file a is in both. -/
theorem c3_membership_invariant (digest : String → Option String)
    (phash : String → Option Sig) (t : ℕ) (files : List String) :
    List.Pairwise (fun e1 e2 => ∀ x, x ∈ e1.2 → x ∉ e2.2)
      (analyze digest phash t files).exactDuplicates ∧
    List.Pairwise (fun g1 g2 => ∀ x, x ∈ g1 → x ∉ g2)
      (analyze digest phash t files).similarGroups ∧
    (∃ e ∈ (analyze digestAB phashABC 5 ["a", "b", "c"]).exactDuplicates,
      "a" ∈ e.2) ∧
    (∃ G ∈ (analyze digestAB phashABC 5 ["a", "b", "c"]).similarGroups,
      "a" ∈ G) := by
  refine ⟨?_, ?_, ?_, ?_⟩
  · rw [analyze_exact]
    exact exactDuplicatesOf_pairwise digest files
  · rw [analyze_similar]
    exact visualAux_pairwise (phashSig phash) t (sigFiles phash files) []
  · decide
  · decide

/-- C3 witness: the disjointness invariants instantiated at a concrete
run. -/
theorem c3_membership_invariant_witness :
    List.Pairwise (fun e1 e2 => ∀ x, x ∈ e1.2 → x ∉ e2.2)
      (analyze digestAB phashABC 5 ["a", "b", "c"]).exactDuplicates :=
  (c3_membership_invariant digestAB phashABC 5 ["a", "b", "c"]).1

/-- C5: a file whose perceptual decode fails (no signature) never appears
in any visual-duplicate group, the exact pass does not depend on the
perceptual fingerprinter at all, and such a file still lands in an
exact-duplicate group together with any other scanned file that shares its
digest. -/
theorem c5_decode_failure_isolation (digest : String → Option String)
    (phash : String → Option Sig) (t : ℕ) (files : List String) (f : String)
    (hf : phash f = none) :
    (∀ G ∈ (analyze digest phash t files).similarGroups, f ∉ G) ∧
    (∀ phash2, (analyze digest phash t files).exactDuplicates =
      (analyze digest phash2 t files).exactDuplicates) ∧
    (∀ g hv, f ∈ files → g ∈ files → f ≠ g → digest f = some hv →
      digest g = some hv →
      ∃ e ∈ (analyze digest phash t files).exactDuplicates,
        f ∈ e.2 ∧ g ∈ e.2) := by
  refine ⟨?_, ?_, ?_⟩
  · intro G hG hc
    rw [analyze_similar] at hG
    have hsub := visualAux_groups_sublist (phashSig phash) t
      (sigFiles phash files) [] G hG
    have : f ∈ sigFiles phash files := hsub.subset hc
    rw [mem_sigFiles] at this
    rw [hf] at this
    simp at this
  · intro phash2
    rw [analyze_exact, analyze_exact]
  · intro g hv hfmem hgmem hfg hdf hdg
    rw [analyze_exact]
    have hfc : f ∈ files.filter (fun x => digest x = some hv) :=
      List.mem_filter.mpr ⟨hfmem, by simp [hdf]⟩
    have hgc : g ∈ files.filter (fun x => digest x = some hv) :=
      List.mem_filter.mpr ⟨hgmem, by simp [hdg]⟩
    have hlen : 1 < (files.filter (fun x => digest x = some hv)).length :=
      one_lt_length_of_mem_ne _ f g hfc hgc hfg
    exact ⟨(hv, files.filter (fun x => digest x = some hv)),
      exactDuplicatesOf_complete digest files hv hlen, hfc, hgc⟩

/-- C5 witness: in a concrete run, file d fails to decode yet is grouped
with file a as an exact duplicate. -/
theorem c5_decode_failure_isolation_witness :
    ∃ e ∈ (analyze digestAD phashABC 5 ["a", "d"]).exactDuplicates,
      "d" ∈ e.2 ∧ "a" ∈ e.2 :=
  (c5_decode_failure_isolation digestAD phashABC 5 ["a", "d"] "d"
    (by decide)).2.2 "a" "h1" (by decide) (by decide) (by decide)
    (by decide) (by decide)

/-- C7: every emitted exact group and every emitted visual group has at
least 2 members, and every report row's file belongs to such a group, so a
file matching no other file yields no row for that pass. -/
theorem c7_min_group_size (digest : String → Option String)
    (phash : String → Option Sig) (t : ℕ) (files : List String) :
    (∀ e ∈ (analyze digest phash t files).exactDuplicates, 2 ≤ e.2.length) ∧
    (∀ G ∈ (analyze digest phash t files).similarGroups, 2 ≤ G.length) ∧
    (∀ r ∈ (analyze digest phash t files).rows,
      (∃ e ∈ (analyze digest phash t files).exactDuplicates,
        2 ≤ e.2.length ∧ r.file_path ∈ e.2) ∨
      (∃ G ∈ (analyze digest phash t files).similarGroups,
        2 ≤ G.length ∧ r.file_path ∈ G)) := by
  refine ⟨?_, ?_, ?_⟩
  · intro e he
    rw [analyze_exact] at he
    have := (List.mem_filter.mp he).2
    simp only [decide_eq_true_eq] at this
    omega
  · intro G hG
    rw [analyze_similar] at hG
    exact visualAux_groups_length (phashSig phash) t (sigFiles phash files)
      [] G hG
  · intro r hr
    rw [analyze_rows] at hr
    rcases List.mem_append.mp hr with hr | hr
    · left
      rw [exactRows] at hr
      obtain ⟨e, he, hre⟩ := List.mem_flatMap.mp hr
      obtain ⟨m, hme, hrm⟩ := List.mem_map.mp hre
      refine ⟨e, by rw [analyze_exact]; exact he, ?_, ?_⟩
      · have := (List.mem_filter.mp he).2
        simp only [decide_eq_true_eq] at this
        omega
      · rw [← hrm]
        exact hme
    · right
      rw [visualRows] at hr
      obtain ⟨p, hp, hrp⟩ := List.mem_flatMap.mp hr
      obtain ⟨m, hmp, hrm⟩ := List.mem_map.mp hrp
      have hpmem : p.2 ∈ similarGroupsOf (phashSig phash) t
          (sigFiles phash files) := by
        have := List.mem_enum_iff_getElem?.mp hp
        exact List.getElem?_mem this
      refine ⟨p.2, by rw [analyze_similar]; exact hpmem, ?_, ?_⟩
      · exact visualAux_groups_length (phashSig phash) t (sigFiles phash files)
          [] p.2 hpmem
      · rw [← hrm]
        exact hmp

/-- C7 witness: a concrete visual group produced by a run has at least two
members. -/
theorem c7_min_group_size_witness :
    ["a", "b"] ∈ (analyze digestAB phashABC 5 ["a", "b", "c"]).similarGroups ∧
      2 ≤ (["a", "b"] : List String).length :=
  ⟨by decide,
    (c7_min_group_size digestAB phashABC 5 ["a", "b", "c"]).2.1 ["a", "b"]
      (by decide)⟩

/-- C10: in every visual-duplicate group the seed is the group's first
member, both the seed and each member carry a perceptual signature, and
every member's signature is within the similarity threshold of the SEED's
signature (membership is decided against the seed, not against previously
added members). -/
theorem c10_seed_star (digest : String → Option String)
    (phash : String → Option Sig) (t : ℕ) (files : List String)
    (G : List String) (m : String)
    (hG : G ∈ (analyze digest phash t files).similarGroups) (hm : m ∈ G) :
    ∃ ss sm, phash G.headI = some ss ∧ phash m = some sm ∧
      hammingDist ss sm ≤ t := by
  rw [analyze_similar] at hG
  have hstar := visualAux_groups_star (phashSig phash) t (sigFiles phash files)
    [] G hG m hm
  have hsub := visualAux_groups_sublist (phashSig phash) t
    (sigFiles phash files) [] G hG
  have hmm : m ∈ sigFiles phash files := hsub.subset hm
  have hhead : G.headI ∈ G := by
    cases G with
    | nil => cases hm
    | cons x xs => simp [List.headI]
  have hmh : G.headI ∈ sigFiles phash files := hsub.subset hhead
  rw [mem_sigFiles] at hmm hmh
  obtain ⟨sm, hsm⟩ := Option.isSome_iff_exists.mp hmm.2
  obtain ⟨ss, hss⟩ := Option.isSome_iff_exists.mp hmh.2
  refine ⟨ss, sm, hss, hsm, ?_⟩
  have h1 : phashSig phash G.headI = ss := by simp [phashSig, hss]
  have h2 : phashSig phash m = sm := by simp [phashSig, hsm]
  rw [h1, h2] at hstar
  exact hstar

/-- C10 witness: in the concrete three-file run, member b of the group
seeded by a is within threshold 5 of the seed's signature. -/
theorem c10_seed_star_witness :
    ∃ ss sm, phashABC (List.headI ["a", "b"]) = some ss ∧
      phashABC "b" = some sm ∧ hammingDist ss sm ≤ 5 :=
  c10_seed_star digestNone phashABC 5 ["a", "b", "c"] ["a", "b"] "b"
    (by decide) (by decide)

/-- C1 counterexample: with signatures at distances d(a,b) = 5, d(b,c) = 5,
d(a,c) = 10 and threshold 5 (scan order a, b, c), the code puts only a and
b in a group and leaves c in no visual group at all, although b and c are
within the threshold — connected-component chaining does NOT happen.  (The
spec's own example distances 3/3/10 are unrealisable: Hamming distance
obeys the triangle inequality, so d(a,c) ≤ d(a,b) + d(b,c).) -/
theorem c1_single_linkage_counterexample :
    hammingDist sigA sigB ≤ 5 ∧ hammingDist sigB sigC ≤ 5 ∧
    hammingDist sigA sigC = 10 ∧
    (analyze digestNone phashABC 5 ["a", "b", "c"]).similarGroups =
      [["a", "b"]] ∧
    ¬ ∃ G ∈ (analyze digestNone phashABC 5 ["a", "b", "c"]).similarGroups,
        "c" ∈ G := by
  decide

/-- C1 amended: clustering is seed-star, not connected components.  When
d(A,B) and d(B,C) are within the threshold but d(A,C) is not (scan order
A, B, C), the visual pass produces exactly the group [A, B]; C is not
chained in through B and, matching no later file, is in no group. -/
theorem c1_single_linkage_amended (sig : String → Sig) (t : ℕ)
    (A B C : String) (hAB : A ≠ B) (hAC : A ≠ C) (hBC : B ≠ C)
    (h1 : hammingDist (sig A) (sig B) ≤ t)
    (h2 : hammingDist (sig B) (sig C) ≤ t)
    (h3 : t < hammingDist (sig A) (sig C)) :
    similarGroupsOf sig t [A, B, C] = [[A, B]] := by
  have h3' : ¬ hammingDist (sig A) (sig C) ≤ t := not_le.mpr h3
  simp [similarGroupsOf, visualAux, scanFrom, h1, h3', Ne.symm hAB,
    Ne.symm hAC, Ne.symm hBC]

/-- C1 witness: the amended statement at the concrete 5/5/10 signatures. -/
theorem c1_single_linkage_witness :
    similarGroupsOf (phashSig phashABC) 5 ["a", "b", "c"] = [["a", "b"]] :=
  c1_single_linkage_amended (phashSig phashABC) 5 "a" "b" "c" (by decide)
    (by decide) (by decide) (by decide) (by decide) (by decide)

/-- C2: identical byte content gives identical digests (and the chunked
streaming digest equals the digest of the whole content); two distinct
scanned files with the same content land in a common exact-duplicate
group; all members of one exact group share one digest (so files with
differing digests are never grouped together); and every digest class with
at least two members is emitted as a group. -/
theorem c2_exact_grouping (md5hex : List ℕ → String)
    (content : String → Option (List ℕ)) (cs : ℕ) (files : List String) :
    (∀ a b, content a = content b →
      get_file_hash md5hex content a cs = get_file_hash md5hex content b cs) ∧
    (0 < cs → ∀ f, get_file_hash md5hex content f cs =
      (content f).map md5hex) ∧
    (∀ f g bytes, f ∈ files → g ∈ files → f ≠ g → content f = some bytes →
      content g = some bytes →
      ∃ e ∈ exactDuplicatesOf
          (fun p => get_file_hash md5hex content p cs) files,
        f ∈ e.2 ∧ g ∈ e.2) ∧
    (∀ (digest : String → Option String) e,
      e ∈ exactDuplicatesOf digest files →
      ∀ f ∈ e.2, ∀ g ∈ e.2, digest f = digest g) ∧
    (∀ (digest : String → Option String) hv,
      1 < (files.filter fun f => digest f = some hv).length →
      (hv, files.filter fun f => digest f = some hv) ∈
        exactDuplicatesOf digest files) := by
  refine ⟨?_, ?_, ?_, ?_, ?_⟩
  · intro a b hab
    unfold get_file_hash
    rw [hab]
  · intro hcs f
    unfold get_file_hash
    cases hc : content f with
    | none => rfl
    | some bytes => simp [readChunks_flatten cs hcs bytes]
  · intro f g bytes hfmem hgmem hfg hcf hcg
    set digest := fun p => get_file_hash md5hex content p cs with hdig
    have hdf : digest f = some (md5hex (readChunks cs bytes).flatten) := by
      simp only [hdig, get_file_hash, hcf]
    have hdg : digest g = some (md5hex (readChunks cs bytes).flatten) := by
      simp only [hdig, get_file_hash, hcg]
    set hv := md5hex (readChunks cs bytes).flatten with hhv
    have hfc : f ∈ files.filter (fun x => digest x = some hv) :=
      List.mem_filter.mpr ⟨hfmem, by simp [hdf]⟩
    have hgc : g ∈ files.filter (fun x => digest x = some hv) :=
      List.mem_filter.mpr ⟨hgmem, by simp [hdg]⟩
    have hlen : 1 < (files.filter (fun x => digest x = some hv)).length :=
      one_lt_length_of_mem_ne _ f g hfc hgc hfg
    exact ⟨(hv, files.filter (fun x => digest x = some hv)),
      exactDuplicatesOf_complete digest files hv hlen, hfc, hgc⟩
  · intro digest e he f hf g hg
    have d1 := (digest_of_mem_exactDuplicatesOf digest files e he f hf).1
    have d2 := (digest_of_mem_exactDuplicatesOf digest files e he g hg).1
    rw [d1, d2]
  · intro digest hv hlen
    exact exactDuplicatesOf_complete digest files hv hlen

/-- C2 witness: two concrete files with the same bytes end up in one exact
group. -/
theorem c2_exact_grouping_witness :
    ∃ e ∈ exactDuplicatesOf
        (fun p => get_file_hash md5Test contentTest p 8192) ["a", "b"],
      "a" ∈ e.2 ∧ "b" ∈ e.2 :=
  (c2_exact_grouping md5Test contentTest 8192 ["a", "b"]).2.2.1 "a" "b"
    [1, 2, 3] (by decide) (by decide) (by decide) (by decide) (by decide)

/-- C4: the analysis output is a function of the scan list, the two
fingerprint functions and the threshold alone (the embedding's ordered
association lists model Python's insertion-ordered dicts, so no hash-map
iteration order enters): two runs over the same inputs yield the same
result record, the same rows, and the same seed (first member) per visual
group. -/
theorem c4_determinism (digest1 digest2 : String → Option String)
    (phash1 phash2 : String → Option Sig) (t1 t2 : ℕ)
    (files1 files2 : List String)
    (hd : ∀ f, digest1 f = digest2 f) (hp : ∀ f, phash1 f = phash2 f)
    (ht : t1 = t2) (hf : files1 = files2) :
    analyze digest1 phash1 t1 files1 = analyze digest2 phash2 t2 files2 ∧
    (analyze digest1 phash1 t1 files1).rows =
      (analyze digest2 phash2 t2 files2).rows ∧
    (analyze digest1 phash1 t1 files1).similarGroups.map List.headI =
      (analyze digest2 phash2 t2 files2).similarGroups.map List.headI := by
  have hd2 : digest1 = digest2 := funext hd
  have hp2 : phash1 = phash2 := funext hp
  subst hd2; subst hp2; subst ht; subst hf
  exact ⟨rfl, rfl, rfl⟩

/-- C4 witness: rerunning the concrete analysis reproduces it exactly. -/
theorem c4_determinism_witness :
    analyze digestAB phashABC 5 ["a", "b", "c"] =
      analyze digestAB phashABC 5 ["a", "b", "c"] :=
  (c4_determinism digestAB digestAB phashABC phashABC 5 5 ["a", "b", "c"]
    ["a", "b", "c"] (fun _ => rfl) (fun _ => rfl) rfl rfl).1

/-- C6: when a file cannot be opened or read the content fingerprinter
returns no digest instead of an aborting error; such a file is in no
exact-duplicate group; and removing it from the scan list leaves the exact
groups unchanged — the analysis of all other files proceeds as if the
unreadable file were absent. -/
theorem c6_read_failure_isolation (md5hex : List ℕ → String)
    (content : String → Option (List ℕ)) (cs : ℕ)
    (digest : String → Option String) (phash : String → Option Sig) (t : ℕ)
    (files : List String) (f : String)
    (hcf : content f = none) (hdf : digest f = none) :
    get_file_hash md5hex content f cs = none ∧
    (∀ e ∈ (analyze digest phash t files).exactDuplicates, f ∉ e.2) ∧
    (analyze digest phash t (files.filter fun g => g ≠ f)).exactDuplicates =
      (analyze digest phash t files).exactDuplicates := by
  refine ⟨?_, ?_, ?_⟩
  · unfold get_file_hash
    rw [hcf]
  · intro e he hc
    rw [analyze_exact] at he
    have := (digest_of_mem_exactDuplicatesOf digest files e he f hc).1
    rw [hdf] at this
    cases this
  · rw [analyze_exact, analyze_exact, exactDuplicatesOf, exactDuplicatesOf,
      buildExactMap_filter_ne digest f hdf]

/-- C6 witness: a concrete unreadable file hashes to no digest. -/
theorem c6_read_failure_isolation_witness :
    get_file_hash md5Test contentTest "z" 8192 = none :=
  (c6_read_failure_isolation md5Test contentTest 8192 digestAD phashABC 5
    ["a", "d", "z"] "z" (by decide) (by decide)).1

/-- C8: at threshold 0 any two files placed in one visual group carry
exactly equal perceptual signatures, and at threshold 64 (the full width
of the signature) all files that produced a signature are clustered into
the single group listing them all, whenever at least two such files
exist. -/
theorem c8_threshold_boundary (digest : String → Option String)
    (phash : String → Option Sig) (files : List String) :
    (∀ G ∈ (analyze digest phash 0 files).similarGroups,
      ∀ a ∈ G, ∀ b ∈ G, phash a = phash b) ∧
    (files.Nodup → 2 ≤ (sigFiles phash files).length →
      (analyze digest phash 64 files).similarGroups =
        [sigFiles phash files]) := by
  constructor
  · intro G hG a ha b hb
    rw [analyze_similar] at hG
    have hsa := visualAux_groups_star (phashSig phash) 0
      (sigFiles phash files) [] G hG a ha
    have hsb := visualAux_groups_star (phashSig phash) 0
      (sigFiles phash files) [] G hG b hb
    have hea : phashSig phash G.headI = phashSig phash a :=
      eq_of_hammingDist_eq_zero (Nat.le_zero.mp hsa)
    have heb : phashSig phash G.headI = phashSig phash b :=
      eq_of_hammingDist_eq_zero (Nat.le_zero.mp hsb)
    have hab : phashSig phash a = phashSig phash b := hea.symm.trans heb
    have hsub := visualAux_groups_sublist (phashSig phash) 0
      (sigFiles phash files) [] G hG
    have hma := (mem_sigFiles phash files a).mp (hsub.subset ha)
    have hmb := (mem_sigFiles phash files b).mp (hsub.subset hb)
    obtain ⟨sa2, hsa2⟩ := Option.isSome_iff_exists.mp hma.2
    obtain ⟨sb2, hsb2⟩ := Option.isSome_iff_exists.mp hmb.2
    rw [hsa2, hsb2]
    rw [phashSig, hsa2, phashSig, hsb2] at hab
    simp only [Option.getD_some] at hab
    rw [hab]
  · intro hnd hlen
    rw [analyze_similar]
    have hnds : (sigFiles phash files).Nodup := hnd.filter _
    obtain ⟨f0, rest, heq, hne⟩ :
        ∃ a rest, sigFiles phash files = a :: rest ∧ rest ≠ [] := by
      cases hsig : sigFiles phash files with
      | nil => rw [hsig] at hlen; simp at hlen
      | cons a r =>
        refine ⟨a, r, rfl, ?_⟩
        intro hc
        rw [hsig, hc] at hlen
        simp at hlen
    rw [heq]
    rw [heq] at hnds
    exact visualAux_total (phashSig phash) 64 f0 rest hnds hne
      (fun x _ => by
        have := hammingDist_le_card_fintype (x := phashSig phash f0)
          (y := phashSig phash x)
        simpa using this)

/-- C8 witness: at threshold 64 the three concrete files form one group
listing exactly the files that produced a signature. -/
theorem c8_threshold_boundary_witness :
    (analyze digestNone phashABC 64 ["a", "b", "c"]).similarGroups =
      [sigFiles phashABC ["a", "b", "c"]] :=
  (c8_threshold_boundary digestNone phashABC ["a", "b", "c"]).2 (by decide)
    (by decide)

/-- C9: the report has exactly one row per (group, member) pair; every row
is an exact row whose identifier is its group's digest, or a visual row
whose identifier is the synthetic sequential label of its group's index;
conversely every (group, member) pair contributes its row; and each
group's member list follows the input scan order (it is a sublist of the
scan list). -/
theorem c9_report_shape (digest : String → Option String)
    (phash : String → Option Sig) (t : ℕ) (files : List String) :
    ((analyze digest phash t files).rows.length =
      ((analyze digest phash t files).exactDuplicates.map
        (fun e => e.2.length)).sum +
      ((analyze digest phash t files).similarGroups.map List.length).sum) ∧
    (∀ r ∈ (analyze digest phash t files).rows,
      (r.type = "exact_duplicate" ∧
        ∃ e ∈ (analyze digest phash t files).exactDuplicates,
          r.group_id = e.1 ∧ r.file_path ∈ e.2) ∨
      (r.type = "visual_duplicate" ∧
        ∃ (n : ℕ) (G : List String),
          (analyze digest phash t files).similarGroups[n]? = some G ∧
          r.group_id = "visual_group_" ++ toString n ∧ r.file_path ∈ G)) ∧
    (∀ e ∈ (analyze digest phash t files).exactDuplicates, ∀ m ∈ e.2,
      (⟨"exact_duplicate", e.1, m⟩ : Row) ∈
        (analyze digest phash t files).rows) ∧
    (∀ (n : ℕ) (G : List String),
      (analyze digest phash t files).similarGroups[n]? = some G →
      ∀ m ∈ G,
        (⟨"visual_duplicate", "visual_group_" ++ toString n, m⟩ : Row) ∈
          (analyze digest phash t files).rows) ∧
    (∀ e ∈ (analyze digest phash t files).exactDuplicates,
      e.2.Sublist files) ∧
    (∀ G ∈ (analyze digest phash t files).similarGroups, G.Sublist files) := by
  refine ⟨?_, ?_, ?_, ?_, ?_, ?_⟩
  · rw [analyze_rows, analyze_exact, analyze_similar, List.length_append,
      exactRows_length, visualRows_length]
  · intro r hr
    rw [analyze_rows] at hr
    rcases List.mem_append.mp hr with hr | hr
    · left
      rw [exactRows] at hr
      obtain ⟨e, he, hre⟩ := List.mem_flatMap.mp hr
      obtain ⟨m, hme, hrm⟩ := List.mem_map.mp hre
      subst hrm
      exact ⟨rfl, e, by rw [analyze_exact]; exact he, rfl, hme⟩
    · right
      rw [visualRows] at hr
      obtain ⟨p, hp, hrp⟩ := List.mem_flatMap.mp hr
      obtain ⟨m, hmp, hrm⟩ := List.mem_map.mp hrp
      subst hrm
      exact ⟨rfl, p.1, p.2,
        by rw [analyze_similar]; exact List.mem_enum_iff_getElem?.mp hp,
        rfl, hmp⟩
  · intro e he m hm
    rw [analyze_exact] at he
    rw [analyze_rows]
    refine List.mem_append.mpr (Or.inl ?_)
    rw [exactRows]
    exact List.mem_flatMap.mpr ⟨e, he, List.mem_map.mpr ⟨m, hm, rfl⟩⟩
  · intro n G hG m hm
    rw [analyze_similar] at hG
    rw [analyze_rows]
    refine List.mem_append.mpr (Or.inr ?_)
    rw [visualRows]
    refine List.mem_flatMap.mpr ⟨(n, G), ?_, List.mem_map.mpr ⟨m, hm, rfl⟩⟩
    exact List.mem_enum_iff_getElem?.mpr hG
  · intro e he
    rw [analyze_exact] at he
    rw [(exactDuplicatesOf_mem digest files e he).1]
    exact List.filter_sublist files
  · intro G hG
    rw [analyze_similar] at hG
    exact (visualAux_groups_sublist (phashSig phash) t (sigFiles phash files)
      [] G hG).trans (List.filter_sublist files)

/-- C9 witness: the concrete run's report contains the visual row of
member b of the group with index 0. -/
theorem c9_report_shape_witness :
    (⟨"visual_duplicate", "visual_group_" ++ toString (0 : ℕ), "b"⟩ : Row) ∈
      (analyze digestAB phashABC 5 ["a", "b", "c"]).rows :=
  (c9_report_shape digestAB phashABC 5 ["a", "b", "c"]).2.2.2.1 0 ["a", "b"]
    (by decide) "b" (by decide)

end ProcessPhotoGallery
